import Mathlib

/-!
Shallow embedding of the generic constraint-assembly layer of
`src/include/libgmultigrid/domain_constraints.h` (class `DomainConstraints<T>`)
and of the `MultigridDomain` contract of
`src/include/libgmultigrid/multigrid_domain.h`, together with proofs of the
spec's testable properties about them.

Eigen scalars (`double`) are modelled as `ℚ`; `Eigen::VectorXd` as `List ℚ`;
dense and sparse Eigen matrices as a size together with an entry function.
The concrete constraint implementation `T` is modelled as data supplying the
five functions the header requires of it (`NumConstraintRows`,
`NumExpectedCols`, `AddTriplets`, `SetTargetValues`,
`NegativeConstraintValues`), each with the behaviour the header's interface
comment documents for it.
-/

namespace LWS

/-- An `Eigen::Triplet<double>`: a (row, col, value) sparse-matrix entry. -/
structure Triplet where
  row : Nat
  col : Nat
  val : ℚ
deriving DecidableEq

/-- An `Eigen::MatrixXd`: a dense matrix, as dimensions plus an entry map. -/
structure DenseMatrix where
  rows : Nat
  cols : Nat
  entry : Nat → Nat → ℚ

/-- An `Eigen::SparseMatrix<double>`: dimensions plus an entry map
(absent coordinates read as 0, as in Eigen's coefficient access). -/
structure SparseMatrix where
  rows : Nat
  cols : Nat
  entry : Nat → Nat → ℚ

/-- The concrete constraint implementation `T` that `DomainConstraints<T>`
is instantiated with.  Per the interface comment in `domain_constraints.h`:
`addTriplets` is the list of (row, col, val) triplets `AddTriplets` appends
to the given list; `setTargetValues` gives the value `SetTargetValues`
stores into each entry of the target vector (a function of the
implementation's state only); `negativeConstraintValues` gives the value
`NegativeConstraintValues(b, targets)` stores into each entry of `b`,
depending on the target values and the implementation's state. -/
structure ConstraintSet where
  numConstraintRows : Nat
  numExpectedCols : Nat
  addTriplets : List Triplet
  setTargetValues : Nat → ℚ
  negativeConstraintValues : List ℚ → Nat → ℚ

namespace ConstraintSet

/-- `DomainConstraints::SaddleNumRows`: size of the full square saddle
matrix, `NumConstraintRows() + NumExpectedCols()`. -/
def SaddleNumRows (cs : ConstraintSet) : Nat :=
  cs.numConstraintRows + cs.numExpectedCols

/-- `B.resize(nRows, nCols)` on an `Eigen::SparseMatrix`: sets the
dimensions and drops all existing entries. -/
def sparseResize (_B : SparseMatrix) (r c : Nat) : SparseMatrix :=
  { rows := r, cols := c, entry := fun _ _ => 0 }

/-- The sum of the values of all triplets of `ts` at coordinate (i, j). -/
def tripletSum (ts : List Triplet) (i j : Nat) : ℚ :=
  ((ts.filter (fun t => t.row == i && t.col == j)).map Triplet.val).sum

/-- `B.setFromTriplets(begin, end)`: replaces the contents of `B` with the
given triplets; duplicates at the same coordinate are summed (Eigen's
documented `setFromTriplets` semantics). -/
def setFromTriplets (B : SparseMatrix) (ts : List Triplet) : SparseMatrix :=
  { rows := B.rows, cols := B.cols, entry := fun i j => tripletSum ts i j }

/-- `DomainConstraints::FillConstraintMatrix(B)`: collects the concrete
implementation's triplets, resizes `B` to
`NumConstraintRows() x NumExpectedCols()`, and assembles the triplets. -/
def FillConstraintMatrix (cs : ConstraintSet) (B : SparseMatrix) : SparseMatrix :=
  setFromTriplets (sparseResize B cs.numConstraintRows cs.numExpectedCols)
    cs.addTriplets

/-- A single dense coefficient write `A(i, j) = v`. -/
def denseWrite (A : DenseMatrix) (i j : Nat) (v : ℚ) : DenseMatrix :=
  { A with entry := fun a b => if a = i ∧ b = j then v else A.entry a b }

/-- Body of the loop of `FillDenseBlock`: for one triplet `t`, the two
assignments `A(offset + t.row(), t.col()) = t.value()` and
`A(t.col(), offset + t.row()) = t.value()`, in that order. -/
def denseWriteTriplet (offset : Nat) (A : DenseMatrix) (t : Triplet) : DenseMatrix :=
  denseWrite (denseWrite A (offset + t.row) t.col t.val) t.col (offset + t.row) t.val

/-- The loop of `FillDenseBlock` over the collected triplet list. -/
def fillDenseLoop (offset : Nat) (A : DenseMatrix) (ts : List Triplet) : DenseMatrix :=
  ts.foldl (denseWriteTriplet offset) A

/-- `DomainConstraints::FillDenseBlock(A)`: collects the concrete
implementation's triplets and writes each into the lower-left block at row
offset `NumExpectedCols()` and (transposed) into the upper-right block at
column offset `NumExpectedCols()`. -/
def FillDenseBlock (cs : ConstraintSet) (A : DenseMatrix) : DenseMatrix :=
  fillDenseLoop cs.numExpectedCols A cs.addTriplets

/-- The state of the `targets` argument of `UpdateTargetValues` at the
point it is handed to the concrete implementation's `SetTargetValues`:
`targets.setZero(nConstrs)` (resize and zero-fill) has been applied exactly
when the length differed from `NumConstraintRows()`. -/
def updateTargetPassed (cs : ConstraintSet) (targets : List ℚ) : List ℚ :=
  if targets.length ≠ cs.numConstraintRows then
    List.replicate cs.numConstraintRows 0
  else targets

/-- Overwriting each entry of vector `v` in place with `f` of its index:
the effect of a call that sets every coefficient of a vector. -/
def setEachEntry (f : Nat → ℚ) (v : List ℚ) : List ℚ :=
  (List.range v.length).map f

/-- `DomainConstraints::UpdateTargetValues(targets)`: zero-resizes
`targets` to `NumConstraintRows()` when its length differs, then lets the
concrete implementation's `SetTargetValues` set each entry. -/
def UpdateTargetValues (cs : ConstraintSet) (targets : List ℚ) : List ℚ :=
  setEachEntry cs.setTargetValues (updateTargetPassed cs targets)

/-- `b.lpNorm<Eigen::Infinity>()`: the largest absolute value of a
coefficient (0 for an empty vector). -/
def infNorm (v : List ℚ) : ℚ :=
  v.foldl (fun m x => max m |x|) 0

/-- The block assignment `b.block(offset, 0, n, 1) = seg` of Eigen, with
Eigen's bounds assertion made explicit: it requires `0 ≤ offset` and
`offset + n ≤ b.rows()`, and on success splices `seg` over the `n` entries
of `b` starting at `offset`, leaving the rest of `b` unchanged. -/
def vecBlockAssign (b : List ℚ) (offset : Int) (seg : List ℚ) : Option (List ℚ) :=
  if 0 ≤ offset ∧ offset.toNat + seg.length ≤ b.length then
    some (b.take offset.toNat ++ seg ++ b.drop (offset.toNat + seg.length))
  else none

/-- `DomainConstraints::FillConstraintValues(b, targets, offset)`: builds
the length-`NumConstraintRows()` vector the concrete implementation's
`NegativeConstraintValues` fills, block-assigns it into `b` at `offset`,
and returns the new `b` together with the returned infinity norm of the
filled vector. -/
def FillConstraintValues (cs : ConstraintSet) (b targets : List ℚ)
    (offset : Int) : Option (List ℚ × ℚ) :=
  let b_constrs := (List.range cs.numConstraintRows).map
    (cs.negativeConstraintValues targets)
  (vecBlockAssign b offset b_constrs).map (fun bNew => (bNew, infNorm b_constrs))

/-- Whether the loop body of `FillDenseBlock` for triplet `t` writes the
dense coefficient (i, j) (in either of its two assignments). -/
def writesCell (offset : Nat) (t : Triplet) (i j : Nat) : Bool :=
  (offset + t.row == i && t.col == j) || (t.col == i && offset + t.row == j)

end ConstraintSet

/-- Modelled from the spec: the transfer/prolongation operator passed to
`Coarsen` and produced by `MakeNewOperator`, opaque to this core. -/
structure Operator where
  tag : Nat

/-- Modelled from the spec: `MultigridDomain<Mult, Operator>` in
`multigrid_domain.h` is a pure virtual interface; no implementation of it
is in this repository.  A domain is modelled as what its whole coarsening
tree reports: each field gives the answer of the corresponding query after
`Coarsen` has been applied along the given list of transfer operators
(the empty list is the domain itself). -/
structure MultigridDomain where
  numVerticesAt : List Operator → Nat
  constraintRowsAt : List Operator → Nat
  fullEntryAt : List Operator → Nat → Nat → ℚ

namespace MultigridDomain

/-- `NumVertices()`: the primary-unknown count at this level. -/
def NumVertices (d : MultigridDomain) : Nat := d.numVerticesAt []

/-- Modelled from the spec: the constraint-row count that this level's
null-space projector implies. -/
def ConstraintRowCount (d : MultigridDomain) : Nat := d.constraintRowsAt []

/-- Modelled from the spec: `NumRows()` always equals vertexCount plus the
constraint-row count the domain's projector implies. -/
def NumRows (d : MultigridDomain) : Nat :=
  d.NumVertices + d.ConstraintRowCount

/-- Modelled from the spec: `GetFullMatrix()` always returns a square
matrix of size `NumRows()`, holding the level's complete saddle matrix. -/
def GetFullMatrix (d : MultigridDomain) : DenseMatrix :=
  { rows := d.NumRows, cols := d.NumRows, entry := d.fullEntryAt [] }

/-- Modelled from the spec: `Coarsen(prolongOp)` constructs and returns a
new domain representing the next multigrid level; every query on the
returned domain is the parent's query with the operator prepended to the
coarsening chain. -/
def Coarsen (d : MultigridDomain) (op : Operator) : MultigridDomain :=
  { numVerticesAt := fun ops => d.numVerticesAt (op :: ops)
    constraintRowsAt := fun ops => d.constraintRowsAt (op :: ops)
    fullEntryAt := fun ops => d.fullEntryAt (op :: ops) }

/-- Modelled from the spec: coarsening is monotonic — at every level of
the coarsening tree, a coarsened domain's vertex count does not exceed its
parent's. -/
def Conforming (d : MultigridDomain) : Prop :=
  ∀ (ops : List Operator) (op : Operator),
    d.numVerticesAt (ops ++ [op]) ≤ d.numVerticesAt ops

/-- The chain D0, D1 = D0.Coarsen(op0), D2 = D1.Coarsen(op1), ...: the
domain obtained by coarsening `d` along the whole list of operators. -/
def coarsenChain (d : MultigridDomain) : List Operator → MultigridDomain
  | [] => d
  | op :: ops => coarsenChain (d.Coarsen op) ops

end MultigridDomain

/-! Concrete instances used as witnesses and counterexamples. -/

namespace ConstraintSet

/-- A concrete conforming constraint implementation, the spec's end-to-end
example: one constraint row over three unknowns, "the sum of the three
unknowns equals the target", with current unknowns summing to 6 and target
value 7. -/
def sumCS : ConstraintSet where
  numConstraintRows := 1
  numExpectedCols := 3
  addTriplets := [⟨0, 0, 1⟩, ⟨0, 1, 1⟩, ⟨0, 2, 1⟩]
  setTargetValues := fun _ => 7
  negativeConstraintValues := fun targets i => targets.getD i 0 - 6

/-- A concrete constraint implementation that emits two triplets at the
same (row, col) coordinate with different values. -/
def dupCS : ConstraintSet where
  numConstraintRows := 1
  numExpectedCols := 1
  addTriplets := [⟨0, 0, 1⟩, ⟨0, 0, 2⟩]
  setTargetValues := fun _ => 0
  negativeConstraintValues := fun _ _ => 0

/-- A 2 x 2 zero dense matrix (the saddle size of `dupCS`). -/
def zero2 : DenseMatrix := ⟨2, 2, fun _ _ => 0⟩

/-- A 4 x 4 zero dense matrix (the saddle size of `sumCS`). -/
def zero4 : DenseMatrix := ⟨4, 4, fun _ _ => 0⟩

/-- An empty sparse matrix, standing for an arbitrary prior buffer. -/
def sparse0 : SparseMatrix := ⟨0, 0, fun _ _ => 0⟩

/-- A stale sparse matrix with nonzero prior contents and wrong shape. -/
def sparseStale : SparseMatrix := ⟨5, 7, fun _ _ => 9⟩

end ConstraintSet

namespace MultigridDomain

/-- A concrete conforming domain: 8 vertices at the finest level, one
vertex lost per coarsening, one constraint row at every level. -/
def wDomain : MultigridDomain where
  numVerticesAt := fun ops => 8 - ops.length
  constraintRowsAt := fun _ => 1
  fullEntryAt := fun _ _ _ => 0

/-- A concrete transfer operator. -/
def wOp : Operator := ⟨0⟩

end MultigridDomain

/-! Helper lemmas. -/

namespace ConstraintSet

lemma writesCell_iff (offset : Nat) (t : Triplet) (i j : Nat) :
    writesCell offset t i j = true ↔
      ((offset + t.row = i ∧ t.col = j) ∨ (t.col = i ∧ offset + t.row = j)) := by
  simp [writesCell]

lemma denseWriteTriplet_entry (offset : Nat) (A : DenseMatrix) (t : Triplet)
    (i j : Nat) :
    (denseWriteTriplet offset A t).entry i j =
      if writesCell offset t i j then t.val else A.entry i j := by
  by_cases hb : writesCell offset t i j = true
  · rw [if_pos hb]
    simp only [denseWriteTriplet, denseWrite]
    rcases (writesCell_iff offset t i j).1 hb with ⟨h1, h2⟩ | ⟨h1, h2⟩
    · by_cases hc : i = t.col ∧ j = offset + t.row
      · rw [if_pos hc]
      · rw [if_neg hc, if_pos ⟨h1.symm, h2.symm⟩]
    · rw [if_pos ⟨h1.symm, h2.symm⟩]
  · rw [if_neg hb]
    obtain ⟨n1, n2⟩ := not_or.1 (fun hx => hb ((writesCell_iff offset t i j).2 hx))
    simp only [denseWriteTriplet, denseWrite]
    rw [if_neg (fun hc => n2 ⟨hc.1.symm, hc.2.symm⟩),
      if_neg (fun hc => n1 ⟨hc.1.symm, hc.2.symm⟩)]

lemma fillDenseLoop_entry (offset : Nat) (ts : List Triplet) (A : DenseMatrix)
    (i j : Nat) :
    (fillDenseLoop offset A ts).entry i j =
      match ts.reverse.find? (fun t => writesCell offset t i j) with
      | some t => t.val
      | none => A.entry i j := by
  induction ts using List.reverseRecOn generalizing A with
  | nil => rfl
  | append_singleton L t ih =>
      have hstep : fillDenseLoop offset A (L ++ [t])
          = denseWriteTriplet offset (fillDenseLoop offset A L) t := by
        simp [fillDenseLoop, List.foldl_append]
      rw [hstep, denseWriteTriplet_entry]
      by_cases hp : writesCell offset t i j = true
      · have hfind : ((L ++ [t]).reverse.find? (fun s => writesCell offset s i j))
            = some t := by
          simp only [List.reverse_append, List.reverse_singleton,
            List.singleton_append]
          exact List.find?_cons_of_pos _ hp
        rw [if_pos hp, hfind]
      · have hfind : ((L ++ [t]).reverse.find? (fun s => writesCell offset s i j))
            = L.reverse.find? (fun s => writesCell offset s i j) := by
          simp only [List.reverse_append, List.reverse_singleton,
            List.singleton_append]
          exact List.find?_cons_of_neg _ (by simpa using hp)
        rw [if_neg hp, hfind, ih]

lemma fillDenseLoop_rows (offset : Nat) (ts : List Triplet) :
    ∀ A : DenseMatrix, (fillDenseLoop offset A ts).rows = A.rows := by
  induction ts with
  | nil => intro A; rfl
  | cons t ts ih =>
      intro A
      have h : fillDenseLoop offset A (t :: ts)
          = fillDenseLoop offset (denseWriteTriplet offset A t) ts := rfl
      rw [h, ih]
      rfl

lemma fillDenseLoop_cols (offset : Nat) (ts : List Triplet) :
    ∀ A : DenseMatrix, (fillDenseLoop offset A ts).cols = A.cols := by
  induction ts with
  | nil => intro A; rfl
  | cons t ts ih =>
      intro A
      have h : fillDenseLoop offset A (t :: ts)
          = fillDenseLoop offset (denseWriteTriplet offset A t) ts := rfl
      rw [h, ih]
      rfl

lemma find?_congr_on {α : Type} (p q : α → Bool) :
    ∀ l : List α, (∀ a ∈ l, p a = q a) → l.find? p = l.find? q := by
  intro l
  induction l with
  | nil => intro _; rfl
  | cons a l ih =>
      intro h
      rw [List.find?_cons, List.find?_cons, h a (List.mem_cons_self a l)]
      cases hq : q a with
      | true => rfl
      | false => exact ih (fun b hb => h b (List.mem_cons_of_mem a hb))

lemma updateTargetPassed_length (cs : ConstraintSet) (targets : List ℚ) :
    (updateTargetPassed cs targets).length = cs.numConstraintRows := by
  unfold updateTargetPassed
  by_cases h : targets.length ≠ cs.numConstraintRows
  · rw [if_pos h, List.length_replicate]
  · rw [if_neg h]
    exact not_ne_iff.1 h

lemma updateTargetValues_eq_range_map (cs : ConstraintSet) (targets : List ℚ) :
    UpdateTargetValues cs targets
      = (List.range cs.numConstraintRows).map cs.setTargetValues := by
  unfold UpdateTargetValues setEachEntry
  rw [updateTargetPassed_length]

lemma splice_length (b seg : List ℚ) (o : Nat) (h : o + seg.length ≤ b.length) :
    (b.take o ++ seg ++ b.drop (o + seg.length)).length = b.length := by
  simp only [List.length_append, List.length_take, List.length_drop]
  omega

lemma splice_getElem? (b seg : List ℚ) (o : Nat) (h : o + seg.length ≤ b.length)
    (m : Nat) :
    (b.take o ++ seg ++ b.drop (o + seg.length))[m]? =
      if m < o then b[m]?
      else if m < o + seg.length then seg[m - o]?
      else b[m]? := by
  have hl1 : (b.take o).length = o := by
    rw [List.length_take]; omega
  have hl12 : (b.take o ++ seg).length = o + seg.length := by
    rw [List.length_append, hl1]
  by_cases hm1 : m < o
  · rw [if_pos hm1, List.getElem?_append_left (by rw [hl12]; omega),
      List.getElem?_append_left (by rw [hl1]; omega), List.getElem?_take_of_lt hm1]
  · rw [if_neg hm1]
    by_cases hm2 : m < o + seg.length
    · rw [if_pos hm2, List.getElem?_append_left (by rw [hl12]; omega),
        List.getElem?_append_right (by rw [hl1]; omega), hl1]
    · rw [if_neg hm2, List.getElem?_append_right (by rw [hl12]; omega), hl12,
        List.getElem?_drop]
      have hidx : o + seg.length + (m - (o + seg.length)) = m := by omega
      rw [hidx]

lemma splice_segment (b seg : List ℚ) (o : Nat) (h : o + seg.length ≤ b.length) :
    ((b.take o ++ seg ++ b.drop (o + seg.length)).drop o).take seg.length = seg := by
  have hl1 : (b.take o).length = o := by
    rw [List.length_take]; omega
  rw [List.append_assoc, List.drop_left' hl1, List.take_left' rfl]

lemma fillConstraintValues_eq (cs : ConstraintSet) (b targets : List ℚ)
    (offset : Int) :
    FillConstraintValues cs b targets offset =
      (vecBlockAssign b offset ((List.range cs.numConstraintRows).map
          (cs.negativeConstraintValues targets))).map
        (fun bNew => (bNew, infNorm ((List.range cs.numConstraintRows).map
          (cs.negativeConstraintValues targets)))) := rfl

lemma vecBlockAssign_some_length (b seg : List ℚ) (offset : Int) (bNew : List ℚ)
    (h : vecBlockAssign b offset seg = some bNew) : bNew.length = b.length := by
  unfold vecBlockAssign at h
  by_cases hc : 0 ≤ offset ∧ offset.toNat + seg.length ≤ b.length
  · rw [if_pos hc] at h
    rw [← Option.some.inj h]
    exact splice_length b seg offset.toNat hc.2
  · rw [if_neg hc] at h
    exact absurd h (by simp)

end ConstraintSet

namespace MultigridDomain

lemma coarsenChain_numVerticesAt (ops : List Operator) :
    ∀ (d : MultigridDomain) (l : List Operator),
      (coarsenChain d ops).numVerticesAt l = d.numVerticesAt (ops ++ l) := by
  induction ops with
  | nil => intro d l; rfl
  | cons op ops ih =>
      intro d l
      simpa [coarsenChain, Coarsen] using ih (d.Coarsen op) l

lemma wDomain_conforming : Conforming wDomain := by
  intro ops op
  simp only [wDomain, List.length_append, List.length_singleton]
  omega

end MultigridDomain

/-! Claim theorems. -/

namespace ConstraintSet

/-- Claim C1 counterexample: the claim asserts that after `FillDenseBlock(A)`
EVERY emitted triplet (row, col, val) satisfies `A[c+row][col] == val`,
even when two emitted triplets share a coordinate.  `dupCS` emits
(0,0,1) and then (0,0,2); the loop's plain assignments overwrite, so the
final coefficient is 2 and the emitted triplet (0,0,1) violates the
claimed equation on the pre-sized 2 x 2 matrix. -/
theorem fillDenseBlock_dup_cex :
    dupCS.numConstraintRows = 1 ∧ dupCS.numExpectedCols = 1 ∧
    zero2.rows = 2 ∧ zero2.cols = 2 ∧
    Triplet.mk 0 0 1 ∈ dupCS.addTriplets ∧
    (FillDenseBlock dupCS zero2).entry (dupCS.numExpectedCols + 0) 0 ≠ 1 ∧
    (FillDenseBlock dupCS zero2).entry 0 (dupCS.numExpectedCols + 0) ≠ 1 := by
  decide

/-- Claim C1 amended: for a ConstraintSet with colCount = c and a dense matrix
A already sized (c+r) x (c+r), after `FillDenseBlock(A)` every emitted
triplet (row, col, val) whose coordinate carries a single value (any two
emitted triplets sharing its (row, col) coordinate agree on the value,
always the case when coordinates are not duplicated) satisfies
`A[c+row][col] == val` and `A[col][c+row] == val`, given the contract's
guarantee that every emitted column index is below colCount. -/
theorem fillDenseBlock_entries (cs : ConstraintSet) (A : DenseMatrix)
    (hcol : ∀ s ∈ cs.addTriplets, s.col < cs.numExpectedCols)
    (t : Triplet) (ht : t ∈ cs.addTriplets)
    (hdup : ∀ s ∈ cs.addTriplets, s.row = t.row → s.col = t.col → s.val = t.val) :
    (FillDenseBlock cs A).entry (cs.numExpectedCols + t.row) t.col = t.val ∧
    (FillDenseBlock cs A).entry t.col (cs.numExpectedCols + t.row) = t.val := by
  have hmem : ∀ i j : Nat, writesCell cs.numExpectedCols t i j = true →
      ∃ s, cs.addTriplets.reverse.find?
        (fun s => writesCell cs.numExpectedCols s i j) = some s := by
    intro i j hw
    have hsome : (cs.addTriplets.reverse.find?
        (fun s => writesCell cs.numExpectedCols s i j)).isSome := by
      rw [List.find?_isSome]
      exact ⟨t, List.mem_reverse.2 ht, hw⟩
    exact Option.isSome_iff_exists.1 hsome
  constructor
  · unfold FillDenseBlock
    rw [fillDenseLoop_entry]
    obtain ⟨s, hs⟩ := hmem (cs.numExpectedCols + t.row) t.col
      ((writesCell_iff _ _ _ _).2 (Or.inl ⟨rfl, rfl⟩))
    rw [hs]
    have hps := List.find?_some hs
    have hsmem : s ∈ cs.addTriplets :=
      List.mem_reverse.1 (List.mem_of_find?_eq_some hs)
    rcases (writesCell_iff _ _ _ _).1 hps with ⟨h1, h2⟩ | ⟨h1, h2⟩
    · exact hdup s hsmem (Nat.add_left_cancel h1) h2
    · exact absurd h1 (by have := hcol s hsmem; omega)
  · unfold FillDenseBlock
    rw [fillDenseLoop_entry]
    obtain ⟨s, hs⟩ := hmem t.col (cs.numExpectedCols + t.row)
      ((writesCell_iff _ _ _ _).2 (Or.inr ⟨rfl, rfl⟩))
    rw [hs]
    have hps := List.find?_some hs
    have hsmem : s ∈ cs.addTriplets :=
      List.mem_reverse.1 (List.mem_of_find?_eq_some hs)
    rcases (writesCell_iff _ _ _ _).1 hps with ⟨h1, h2⟩ | ⟨h1, h2⟩
    · exact absurd h2 (by have := hcol s hsmem; omega)
    · exact hdup s hsmem (Nat.add_left_cancel h2) h1

/-- Claim C1 witness: the amended theorem applied to the spec's end-to-end
example (one row over three unknowns) places the triplet (0, 1, 1) at
A[3][1] and A[1][3] of the pre-sized 4 x 4 matrix. -/
theorem fillDenseBlock_entries_witness :
    (∀ s ∈ sumCS.addTriplets, s.col < sumCS.numExpectedCols) ∧
    (FillDenseBlock sumCS zero4).entry (sumCS.numExpectedCols + 0) 1 = 1 ∧
    (FillDenseBlock sumCS zero4).entry 1 (sumCS.numExpectedCols + 0) = 1 := by
  refine ⟨by decide, ?_, ?_⟩
  · exact (fillDenseBlock_entries sumCS zero4 (by decide) ⟨0, 1, 1⟩
      (by decide) (by decide)).1
  · exact (fillDenseBlock_entries sumCS zero4 (by decide) ⟨0, 1, 1⟩
      (by decide) (by decide)).2

/-- Claim C6: `FillDenseBlock(A)` keeps the dimensions of A unchanged and leaves
every coefficient of A unchanged except the positions
(c + row, col) and (col, c + row) of the emitted triplets; in particular
it does not zero the rest of A. -/
theorem fillDenseBlock_frame (cs : ConstraintSet) (A : DenseMatrix) (i j : Nat)
    (h : ∀ t ∈ cs.addTriplets,
      ¬(i = cs.numExpectedCols + t.row ∧ j = t.col) ∧
      ¬(i = t.col ∧ j = cs.numExpectedCols + t.row)) :
    (FillDenseBlock cs A).rows = A.rows ∧
    (FillDenseBlock cs A).cols = A.cols ∧
    (FillDenseBlock cs A).entry i j = A.entry i j := by
  refine ⟨fillDenseLoop_rows _ _ _, fillDenseLoop_cols _ _ _, ?_⟩
  unfold FillDenseBlock
  rw [fillDenseLoop_entry]
  have hnone : cs.addTriplets.reverse.find?
      (fun t => writesCell cs.numExpectedCols t i j) = none := by
    rw [List.find?_eq_none]
    intro s hsmem hws
    obtain ⟨n1, n2⟩ := h s (List.mem_reverse.1 hsmem)
    rcases (writesCell_iff _ _ _ _).1 hws with ⟨h1, h2⟩ | ⟨h1, h2⟩
    · exact n1 ⟨h1.symm, h2.symm⟩
    · exact n2 ⟨h1.symm, h2.symm⟩
  rw [hnone]

/-- Claim C6 witness: on the spec's end-to-end example, the top-left coefficient
(0, 0) — inside the kernel quadrant — is untouched, and A keeps its 4 x 4
size. -/
theorem fillDenseBlock_frame_witness :
    (∀ t ∈ sumCS.addTriplets,
      ¬((0 : Nat) = sumCS.numExpectedCols + t.row ∧ (0 : Nat) = t.col) ∧
      ¬((0 : Nat) = t.col ∧ (0 : Nat) = sumCS.numExpectedCols + t.row)) ∧
    ((FillDenseBlock sumCS zero4).rows = zero4.rows ∧
     (FillDenseBlock sumCS zero4).cols = zero4.cols ∧
     (FillDenseBlock sumCS zero4).entry 0 0 = zero4.entry 0 0) :=
  ⟨by decide, fillDenseBlock_frame sumCS zero4 0 0 (by decide)⟩

/-- Claim C4 counterexample: the claim asserts duplicate triplets accumulate by
addition in BOTH the sparse block and the dense quadrants.  `dupCS` emits
(0,0,1) and (0,0,2): the sparse block holds their sum 3, but the dense
quadrants hold 2 (the assignments in the loop of `FillDenseBlock`
overwrite instead of accumulating). -/
theorem dup_accumulate_cex :
    (FillConstraintMatrix dupCS sparse0).entry 0 0 = 3 ∧
    (FillDenseBlock dupCS zero2).entry (dupCS.numExpectedCols + 0) 0 ≠ 3 ∧
    (FillDenseBlock dupCS zero2).entry 0 (dupCS.numExpectedCols + 0) ≠ 3 := by
  refine ⟨?_, by decide, by decide⟩
  norm_num [FillConstraintMatrix, setFromTriplets, sparseResize, tripletSum,
    dupCS, sparse0, List.filter]

/-- Claim C4 amended: duplicate triplets at one coordinate accumulate by
addition in the sparse block produced by `FillConstraintMatrix` (every
coefficient is the sum of the values of the triplets at its coordinate);
in the dense quadrants written by `FillDenseBlock` the coordinate instead
holds the value of the LAST emitted triplet at that coordinate (plain
assignment, given the contract's in-range guarantee on column indices). -/
theorem dup_assembly_semantics (cs : ConstraintSet) (B : SparseMatrix)
    (A : DenseMatrix)
    (hcol : ∀ s ∈ cs.addTriplets, s.col < cs.numExpectedCols) :
    (∀ i j, (FillConstraintMatrix cs B).entry i j = tripletSum cs.addTriplets i j) ∧
    (∀ t : Triplet,
      cs.addTriplets.reverse.find? (fun s => s.row == t.row && s.col == t.col)
        = some t →
      (FillDenseBlock cs A).entry (cs.numExpectedCols + t.row) t.col = t.val ∧
      (FillDenseBlock cs A).entry t.col (cs.numExpectedCols + t.row) = t.val) := by
  constructor
  · intro i j; rfl
  · intro t hfind
    constructor
    · unfold FillDenseBlock
      rw [fillDenseLoop_entry]
      have hcongr : cs.addTriplets.reverse.find?
          (fun s => writesCell cs.numExpectedCols s (cs.numExpectedCols + t.row) t.col)
          = cs.addTriplets.reverse.find? (fun s => s.row == t.row && s.col == t.col) := by
        apply find?_congr_on
        intro s hsmem
        have hs := hcol s (List.mem_reverse.1 hsmem)
        rw [Bool.eq_iff_iff, writesCell_iff]
        simp only [Bool.and_eq_true, beq_iff_eq]
        constructor
        · rintro (⟨h1, h2⟩ | ⟨h1, h2⟩)
          · exact ⟨by omega, h2⟩
          · exact absurd h1 (by omega)
        · rintro ⟨h1, h2⟩
          exact Or.inl ⟨by omega, h2⟩
      rw [hcongr, hfind]
    · unfold FillDenseBlock
      rw [fillDenseLoop_entry]
      have hcongr : cs.addTriplets.reverse.find?
          (fun s => writesCell cs.numExpectedCols s t.col (cs.numExpectedCols + t.row))
          = cs.addTriplets.reverse.find? (fun s => s.row == t.row && s.col == t.col) := by
        apply find?_congr_on
        intro s hsmem
        have hs := hcol s (List.mem_reverse.1 hsmem)
        rw [Bool.eq_iff_iff, writesCell_iff]
        simp only [Bool.and_eq_true, beq_iff_eq]
        constructor
        · rintro (⟨h1, h2⟩ | ⟨h1, h2⟩)
          · exact absurd h2 (by omega)
          · exact ⟨by omega, h1⟩
        · rintro ⟨h1, h2⟩
          exact Or.inr ⟨h2, by omega⟩
      rw [hcongr, hfind]

/-- Claim C4 witness: the amended theorem applied to `dupCS` over a stale
sparse buffer: the sparse coefficient is the accumulated sum and the dense
coefficient is the last emitted value 2. -/
theorem dup_assembly_semantics_witness :
    (∀ s ∈ dupCS.addTriplets, s.col < dupCS.numExpectedCols) ∧
    (FillConstraintMatrix dupCS sparseStale).entry 0 0
      = tripletSum dupCS.addTriplets 0 0 ∧
    (FillDenseBlock dupCS zero2).entry (dupCS.numExpectedCols + 0) 0 = 2 := by
  refine ⟨by decide,
    (dup_assembly_semantics dupCS sparseStale zero2 (by decide)).1 0 0, ?_⟩
  exact ((dup_assembly_semantics dupCS sparseStale zero2 (by decide)).2
    ⟨0, 0, 2⟩ (by decide)).1

/-- Claim C3: for any prior sparse buffer, `FillConstraintMatrix(B)` produces a
block of shape exactly `NumConstraintRows() x NumExpectedCols()` whose
coefficients are assembled from the freshly emitted triplets alone; no
prior entry of B contributes (any two prior buffers give the same
result). -/
theorem fillConstraintMatrix_fresh (cs : ConstraintSet) (B Bprior : SparseMatrix) :
    (FillConstraintMatrix cs B).rows = cs.numConstraintRows ∧
    (FillConstraintMatrix cs B).cols = cs.numExpectedCols ∧
    (∀ i j, (FillConstraintMatrix cs B).entry i j = tripletSum cs.addTriplets i j) ∧
    FillConstraintMatrix cs B = FillConstraintMatrix cs Bprior :=
  ⟨rfl, rfl, fun _ _ => rfl, rfl⟩

/-- Claim C2: under the contract's pre-sizing precondition, `FillConstraintValues`
writes exactly the `NumConstraintRows()` entries of b at `offset` through
`offset + r - 1` (with the residual values the concrete implementation
computed), leaves every other entry of b unchanged, and returns the
infinity norm of exactly that written segment. -/
theorem fillConstraintValues_writes (cs : ConstraintSet) (b targets : List ℚ)
    (offset : Int) (h0 : 0 ≤ offset)
    (h1 : offset.toNat + cs.numConstraintRows ≤ b.length) :
    ∃ bNew ret,
      FillConstraintValues cs b targets offset = some (bNew, ret) ∧
      bNew.length = b.length ∧
      (∀ k, k < cs.numConstraintRows →
        bNew[offset.toNat + k]? = some (cs.negativeConstraintValues targets k)) ∧
      (∀ m, m < offset.toNat ∨ offset.toNat + cs.numConstraintRows ≤ m →
        bNew[m]? = b[m]?) ∧
      ret = infNorm ((bNew.drop offset.toNat).take cs.numConstraintRows) := by
  have hlen : ((List.range cs.numConstraintRows).map
      (cs.negativeConstraintValues targets)).length = cs.numConstraintRows := by
    rw [List.length_map, List.length_range]
  set o := offset.toNat with ho
  set seg := (List.range cs.numConstraintRows).map
    (cs.negativeConstraintValues targets) with hseg
  have hbound : o + seg.length ≤ b.length := by omega
  refine ⟨b.take o ++ seg ++ b.drop (o + seg.length), infNorm seg, ?_, ?_, ?_, ?_, ?_⟩
  · rw [fillConstraintValues_eq, vecBlockAssign, if_pos ⟨h0, hbound⟩]
    rfl
  · exact splice_length b seg o hbound
  · intro k hk
    rw [splice_getElem? b seg o hbound, if_neg (by omega), if_pos (by omega)]
    have hidx : o + k - o = k := by omega
    rw [hidx, hseg, List.getElem?_map, List.getElem?_range hk]
    rfl
  · intro m hm
    rw [splice_getElem? b seg o hbound]
    rcases hm with hm | hm
    · rw [if_pos hm]
    · rw [if_neg (by omega), if_neg (by omega)]
  · have hs := splice_segment b seg o hbound
    rw [← hlen, hs]

/-- Claim C2 witness: on the spec's end-to-end example with b = [0,0,0,0],
targets = [7] and offset = 3, the precondition holds and the conclusion is
obtained from the theorem. -/
theorem fillConstraintValues_writes_witness :
    (0 : Int) ≤ 3 ∧
    (3 : Int).toNat + sumCS.numConstraintRows ≤ ([0, 0, 0, 0] : List ℚ).length ∧
    (∃ bNew ret,
      FillConstraintValues sumCS [0, 0, 0, 0] [7] 3 = some (bNew, ret) ∧
      bNew.length = ([0, 0, 0, 0] : List ℚ).length ∧
      (∀ k, k < sumCS.numConstraintRows →
        bNew[(3 : Int).toNat + k]? = some (sumCS.negativeConstraintValues [7] k)) ∧
      (∀ m, m < (3 : Int).toNat ∨ (3 : Int).toNat + sumCS.numConstraintRows ≤ m →
        bNew[m]? = (([0, 0, 0, 0] : List ℚ))[m]?) ∧
      ret = infNorm ((bNew.drop (3 : Int).toNat).take sumCS.numConstraintRows)) :=
  ⟨by decide, by decide,
    fillConstraintValues_writes sumCS [0, 0, 0, 0] [7] 3 (by decide) (by decide)⟩

/-- Claim C10: `FillConstraintValues` never resizes b (any successful result has
b's original length), and under the precondition `offset ≥ 0` and
`b.length ≥ offset + NumConstraintRows()` the embedded bounds check of the
block write succeeds — the out-of-range error branch is unreachable. -/
theorem fillConstraintValues_safe (cs : ConstraintSet) (b targets : List ℚ)
    (offset : Int) :
    (∀ bNew ret, FillConstraintValues cs b targets offset = some (bNew, ret) →
      bNew.length = b.length) ∧
    (0 ≤ offset → offset.toNat + cs.numConstraintRows ≤ b.length →
      (FillConstraintValues cs b targets offset).isSome = true) := by
  have hlen : ((List.range cs.numConstraintRows).map
      (cs.negativeConstraintValues targets)).length = cs.numConstraintRows := by
    rw [List.length_map, List.length_range]
  constructor
  · intro bNew ret hout
    rw [fillConstraintValues_eq] at hout
    cases hva : vecBlockAssign b offset ((List.range cs.numConstraintRows).map
        (cs.negativeConstraintValues targets)) with
    | none => rw [hva] at hout; exact absurd hout (by simp)
    | some bx =>
        rw [hva] at hout
        have hbx : bx = bNew := congrArg Prod.fst (Option.some.inj hout)
        rw [← hbx]
        exact vecBlockAssign_some_length _ _ _ _ hva
  · intro h0 h1
    rw [fillConstraintValues_eq, vecBlockAssign, if_pos ⟨h0, by omega⟩]
    rfl

/-- Claim C10 witness: the theorem at the spec's end-to-end example, with the
precondition discharged at b = [0,0,0,0], offset = 3. -/
theorem fillConstraintValues_safe_witness :
    (0 : Int) ≤ 3 ∧
    (3 : Int).toNat + sumCS.numConstraintRows ≤ ([0, 0, 0, 0] : List ℚ).length ∧
    (FillConstraintValues sumCS [0, 0, 0, 0] [7] 3).isSome = true :=
  ⟨by decide, by decide,
    (fillConstraintValues_safe sumCS [0, 0, 0, 0] [7] 3).2 (by decide) (by decide)⟩

/-- Claim C5: `UpdateTargetValues` on a targets vector of the wrong length first
zero-resizes it to length `NumConstraintRows()` (that is what the concrete
implementation is then handed), then populates the r target values; and a
second call on the result yields the identical vector (idempotence, the
concrete implementation's state being part of `cs` and hence unchanged). -/
theorem updateTargetValues_resize_idem (cs : ConstraintSet) (targets : List ℚ)
    (h : targets.length ≠ cs.numConstraintRows) :
    updateTargetPassed cs targets = List.replicate cs.numConstraintRows 0 ∧
    (UpdateTargetValues cs targets).length = cs.numConstraintRows ∧
    UpdateTargetValues cs (UpdateTargetValues cs targets)
      = UpdateTargetValues cs targets := by
  refine ⟨?_, ?_, ?_⟩
  · rw [updateTargetPassed, if_pos h]
  · rw [updateTargetValues_eq_range_map, List.length_map, List.length_range]
  · rw [updateTargetValues_eq_range_map cs (UpdateTargetValues cs targets),
      updateTargetValues_eq_range_map cs targets]

/-- Claim C5 witness: the theorem at the spec's end-to-end example applied to
the empty (wrong-length) target vector. -/
theorem updateTargetValues_resize_idem_witness :
    ([] : List ℚ).length ≠ sumCS.numConstraintRows ∧
    (updateTargetPassed sumCS [] = List.replicate sumCS.numConstraintRows 0 ∧
     (UpdateTargetValues sumCS []).length = sumCS.numConstraintRows ∧
     UpdateTargetValues sumCS (UpdateTargetValues sumCS [])
       = UpdateTargetValues sumCS []) :=
  ⟨by decide, updateTargetValues_resize_idem sumCS [] (by decide)⟩

/-- Claim C9: when the targets vector already has exactly `NumConstraintRows()`
entries, the generic layer of `UpdateTargetValues` does not zero or
otherwise modify it before delegating: the vector handed to the concrete
implementation's `SetTargetValues` is the caller's vector unchanged. -/
theorem updateTargetPassed_id (cs : ConstraintSet) (targets : List ℚ)
    (h : targets.length = cs.numConstraintRows) :
    updateTargetPassed cs targets = targets := by
  rw [updateTargetPassed, if_neg (not_ne_iff.2 h)]

/-- Claim C9 witness: a correctly sized target vector with nonzero prior
contents reaches the concrete implementation unchanged. -/
theorem updateTargetPassed_id_witness :
    ([5] : List ℚ).length = sumCS.numConstraintRows ∧
    updateTargetPassed sumCS [5] = [5] :=
  ⟨by decide, updateTargetPassed_id sumCS [5] (by decide)⟩

end ConstraintSet

namespace MultigridDomain

/-- Claim C7: for every domain of the modelled contract,
`NumRows()` equals `NumVertices()` plus the domain's constraint-row count,
hence `NumRows() >= NumVertices()`, and `GetFullMatrix()` is a square
matrix of size `NumRows() x NumRows()`. -/
theorem numRows_saddle (d : MultigridDomain) :
    d.NumRows = d.NumVertices + d.ConstraintRowCount ∧
    d.NumVertices ≤ d.NumRows ∧
    d.GetFullMatrix.rows = d.NumRows ∧
    d.GetFullMatrix.cols = d.NumRows :=
  ⟨rfl, Nat.le_add_right _ _, rfl, rfl⟩

/-- Claim C8: for a domain satisfying the modelled monotone-coarsening contract,
each `Coarsen` does not increase `NumVertices()`, and along any chain
D0, D1 = D0.Coarsen(op0), D2 = D1.Coarsen(op1), ... the vertex counts are
non-increasing step by step. -/
theorem coarsen_vertices_monotone (d : MultigridDomain) (hd : d.Conforming) :
    (∀ op, (d.Coarsen op).NumVertices ≤ d.NumVertices) ∧
    (∀ (pre : List Operator) (op : Operator),
      (coarsenChain d (pre ++ [op])).NumVertices
        ≤ (coarsenChain d pre).NumVertices) := by
  constructor
  · intro op
    exact hd [] op
  · intro pre op
    have h1 : (coarsenChain d (pre ++ [op])).NumVertices
        = d.numVerticesAt (pre ++ [op]) := by
      rw [NumVertices, coarsenChain_numVerticesAt, List.append_nil]
    have h2 : (coarsenChain d pre).NumVertices = d.numVerticesAt pre := by
      rw [NumVertices, coarsenChain_numVerticesAt, List.append_nil]
    rw [h1, h2]
    exact hd pre op

/-- Claim C8 witness: a concrete conforming domain chain losing one vertex per
level, coarsened once. -/
theorem coarsen_vertices_monotone_witness :
    wDomain.Conforming ∧
    (wDomain.Coarsen wOp).NumVertices ≤ wDomain.NumVertices :=
  ⟨wDomain_conforming,
    (coarsen_vertices_monotone wDomain wDomain_conforming).1 wOp⟩

end MultigridDomain

end LWS
